import Mathlib

/-!
Shallow embedding of `src/pagerank.py` (PageRank estimation over a small
hyperlink graph).  Python dicts are modelled as association lists in
insertion order; the floating-point arithmetic of the source is modelled
exactly over `ℚ`; the random draws of the sampling estimator are modelled
as explicit inputs (a starting index and a stream of rationals in `[0,1)`
feeding the weighted choice); the unbounded `while` loop of the iterative
estimator is modelled with explicit fuel (`none` = still running after
`fuel` iterations).  Python runtime errors that the code can actually
raise are modelled with an explicit error type.
-/

set_option maxHeartbeats 1000000

namespace PageRank

/-- Pages are opaque string identifiers, as in the source. -/
abbrev Page := String

/-- The corpus: a Python dict mapping each page to the list of pages it
links to (`crawl` builds a `dict` of `set`s; we keep insertion order and
record well-formedness such as duplicate-freeness as predicates). -/
abbrev Corpus := List (Page × List Page)

/-- Python runtime errors that the embedded code can raise. -/
inductive PyErr where
  | keyError
  | zeroDivisionError
  | indexError
  deriving DecidableEq

/-- First-match association-list lookup: the semantics of `d[k]`
(`none` = `KeyError`). -/
def alookup {β : Type} : List (Page × β) → Page → Option β
  | [], _ => none
  | (q, v) :: rest, p => if p = q then some v else alookup rest p

/-- The key list of a dict, in iteration order (`d.keys()`). -/
def keys {β : Type} (c : List (Page × β)) : List Page := c.map Prod.fst

/-- Value of a rank/probability table at a page (all uses in the source
look up keys that are present, so the default is never reached there). -/
def getv (t : List (Page × ℚ)) (p : Page) : ℚ := (alookup t p).getD 0

/-- `corpus[page]` where `page` is known to be a key (the iterative
estimator only looks up its own iteration variable). -/
def corpusLinks (c : Corpus) (p : Page) : List Page := (alookup c p).getD []

/-- `transition_model(corpus, page, damping_factor)` from the source:
`corpus[page]` (a `KeyError` when `page` is not a key), then either the
damped distribution `(1-d)/N + d/len(links)` on linked pages and
`(1-d)/N` elsewhere, or the uniform `1/N` distribution when the page has
no outbound links. -/
def transition_model (corpus : Corpus) (page : Page) (damping_factor : ℚ) :
    Except PyErr (List (Page × ℚ)) :=
  let N : ℚ := (corpus.length : ℚ)
  match alookup corpus page with
  | none => .error .keyError
  | some linked_pages =>
    if linked_pages = [] then
      .ok ((keys corpus).map (fun p => (p, 1 / N)))
    else
      .ok ((keys corpus).map (fun p =>
        (p, (1 - damping_factor) / N +
          if p ∈ linked_pages then damping_factor / (linked_pages.length : ℚ)
          else 0)))

/-- Total of the weight list (`random.choices` computes the cumulative
weights; their last entry is this total). -/
def totalWeight (l : List (Page × ℚ)) : ℚ := (l.map Prod.snd).sum

/-- Scan of the cumulative weights: returns the first entry whose running
weight exceeds the target, clamped to the last entry (exactly the
`bisect` on cumulative weights with upper bound `len - 1` performed by
`random.choices`). -/
def pickCum : List (Page × ℚ) → ℚ → Option Page
  | [], _ => none
  | (p, w) :: rest, t =>
    if t < w ∨ rest = [] then some p else pickCum rest (t - w)

/-- `random.choices(pages, weights=weights, k=1)[0]` with the uniform
draw `r ∈ [0,1)` made explicit: the chosen page is the one whose
cumulative-weight interval contains `r * total`. -/
def weightedChoice (l : List (Page × ℚ)) (r : ℚ) : Option Page :=
  pickCum l (r * totalWeight l)

/-- `counts[current_page] += 1` (the key is always present in the
source: counts is keyed by all corpus pages and the walk stays inside
the corpus). -/
def incr (counts : List (Page × Nat)) (p : Page) : List (Page × Nat) :=
  counts.map (fun qc => if qc.1 = p then (qc.1, qc.2 + 1) else qc)

/-- The `for _ in range(n)` loop of `sample_pagerank`: record a visit to
the current page, compute the transition model, draw the next page.
`k` is the index into the stream of uniform draws. -/
def sampleLoop (corpus : Corpus) (damping_factor : ℚ) (draws : Nat → ℚ) :
    Nat → Nat → Page → List (Page × Nat) → Except PyErr (List (Page × Nat))
  | 0, _, _, counts => .ok counts
  | steps + 1, k, current_page, counts =>
    let counts := incr counts current_page
    match transition_model corpus current_page damping_factor with
    | .error e => .error e
    | .ok probs =>
      match weightedChoice probs (draws k) with
      | none => .error .indexError
      | some next => sampleLoop corpus damping_factor draws steps (k + 1) next counts

/-- `sample_pagerank(corpus, damping_factor, n)` from the source, with
the random draws modelled as inputs: `i0` is the index drawn by
`random.choice(list(corpus.keys()))` (an `IndexError` on an empty
corpus), `draws` feeds the per-step weighted choices.  After the loop,
`count / n` raises `ZeroDivisionError` when `n = 0`. -/
def sample_pagerank (corpus : Corpus) (damping_factor : ℚ) (n : Nat)
    (i0 : Nat) (draws : Nat → ℚ) : Except PyErr (List (Page × ℚ)) :=
  match (keys corpus)[i0]? with
  | none => .error .indexError
  | some current_page =>
    let counts := (keys corpus).map (fun page => (page, (0 : Nat)))
    match sampleLoop corpus damping_factor draws n 0 current_page counts with
    | .error e => .error e
    | .ok counts =>
      if n = 0 then .error .zeroDivisionError
      else .ok (counts.map (fun pc => (pc.1, (pc.2 : ℚ) / (n : ℚ))))

/-- Body of the inner `for page in corpus` loop of `iterate_pagerank`:
`(1-d)/N` plus `d` times the accumulated `total` over all pages
`possible_page`, where a page with links contributes `rank/len(links)`
when it links to `page` (else nothing) and a page without links
contributes `rank/N`. -/
def new_rank_for (corpus : Corpus) (damping_factor : ℚ)
    (pagerank : List (Page × ℚ)) (page : Page) : ℚ :=
  let N : ℚ := (corpus.length : ℚ)
  (1 - damping_factor) / N +
    damping_factor *
      ((keys corpus).map (fun possible_page =>
        if corpusLinks corpus possible_page = [] then
          getv pagerank possible_page / N
        else if page ∈ corpusLinks corpus possible_page then
          getv pagerank possible_page / ((corpusLinks corpus possible_page).length : ℚ)
        else 0)).sum

/-- The fresh `new_ranks` dict computed in one pass of the `while` loop,
from the previous iteration's values only. -/
def new_ranks_of (corpus : Corpus) (damping_factor : ℚ)
    (pagerank : List (Page × ℚ)) : List (Page × ℚ) :=
  (keys corpus).map (fun page => (page, new_rank_for corpus damping_factor pagerank page))

/-- The convergence scan `for page in pagerank: if abs(...) > 0.001:
converged = False; break` — `true` iff no page moved by more than
`0.001`. -/
def convergedCheck (pagerank new_ranks : List (Page × ℚ)) : List Page → Bool
  | [] => true
  | page :: rest =>
    if 1 / 1000 < |getv new_ranks page - getv pagerank page| then false
    else convergedCheck pagerank new_ranks rest

/-- The `while not converged` loop with explicit fuel: compute
`new_ranks`, return them if converged, otherwise adopt them and repeat
(`none` = still not converged after `fuel` passes). -/
def iterLoop (corpus : Corpus) (damping_factor : ℚ) :
    Nat → List (Page × ℚ) → Option (List (Page × ℚ))
  | 0, _ => none
  | fuel + 1, pagerank =>
    if convergedCheck pagerank (new_ranks_of corpus damping_factor pagerank) (keys pagerank)
    then some (new_ranks_of corpus damping_factor pagerank)
    else iterLoop corpus damping_factor fuel (new_ranks_of corpus damping_factor pagerank)

/-- `iterate_pagerank(corpus, damping_factor)` from the source:
initialise every rank to `1/N` and run the loop.  On the empty corpus
the comprehension `{page: 1 / N for page in corpus}` never evaluates
`1 / N`, so no `ZeroDivisionError` is raised and the empty dict flows
through the loop. -/
def iterate_pagerank (corpus : Corpus) (damping_factor : ℚ) (fuel : Nat) :
    Option (List (Page × ℚ)) :=
  let N : ℚ := (corpus.length : ℚ)
  iterLoop corpus damping_factor fuel
    ((keys corpus).map (fun page => (page, 1 / N)))

/-- A Python dict never repeats a key. -/
def WF (corpus : Corpus) : Prop := (keys corpus).Nodup

/-- The graph invariants of the spec: unique keys, every link target is
itself a key, link sets are duplicate-free, and no page links to
itself. -/
def Inv (corpus : Corpus) : Prop :=
  (keys corpus).Nodup ∧
    ∀ pl ∈ corpus, (∀ t ∈ pl.2, t ∈ keys corpus) ∧ pl.2.Nodup ∧ pl.1 ∉ pl.2

/-- Spec-side contribution of page `q` to page `p` in one update of the
iterative estimator, in the spec's own case order: `rank(q)/|links(q)|`
when `p ∈ links(q)`; `rank(q)/N` when `q` has no outbound links;
otherwise `0`. -/
def contribution (corpus : Corpus) (pagerank : List (Page × ℚ)) (q p : Page) : ℚ :=
  if p ∈ corpusLinks corpus q then
    getv pagerank q / ((corpusLinks corpus q).length : ℚ)
  else if corpusLinks corpus q = [] then
    getv pagerank q / ((corpus.length : ℚ))
  else 0

/-- Spec-side trajectory of the random surfer: the list of the pages
visited in `steps` steps from `current`, each successor drawn from the
transition model of the page before it by the weighted choice fed with
draw `k`, `k+1`, ... -/
def walkList (corpus : Corpus) (damping_factor : ℚ) (draws : Nat → ℚ) :
    Nat → Nat → Page → Option (List Page)
  | 0, _, _ => some []
  | steps + 1, k, current =>
    match transition_model corpus current damping_factor with
    | .error _ => none
    | .ok probs =>
      match weightedChoice probs (draws k) with
      | none => none
      | some next =>
        (walkList corpus damping_factor draws steps (k + 1) next).map
          (fun rest => current :: rest)

/-! ### Association-list lemmas -/

theorem alookup_map_self {β : Type} (l : List Page) (f : Page → β) {p : Page}
    (hp : p ∈ l) : alookup (l.map (fun q => (q, f q))) p = some (f p) := by
  induction l with
  | nil => cases hp
  | cons a l ih =>
    rcases List.mem_cons.mp hp with h | h
    · subst h; simp [alookup]
    · by_cases hpa : p = a
      · subst hpa; simp [alookup]
      · simpa [alookup, hpa] using ih h

theorem getv_map_self (l : List Page) (f : Page → ℚ) {p : Page} (hp : p ∈ l) :
    getv (l.map (fun q => (q, f q))) p = f p := by
  simp [getv, alookup_map_self l f hp]

theorem keys_map_self {β : Type} (l : List Page) (f : Page → β) :
    keys (l.map (fun q => (q, f q))) = l := by
  simp [keys, List.map_map]
  exact l.map_id

theorem values_map_self {β : Type} (l : List Page) (f : Page → β) :
    (l.map (fun q => (q, f q))).map Prod.snd = l.map f := by
  simp [List.map_map]

theorem alookup_eq_none {β : Type} {c : List (Page × β)} {p : Page} :
    alookup c p = none ↔ p ∉ keys c := by
  induction c with
  | nil => simp [alookup, keys]
  | cons qv rest ih =>
    obtain ⟨q, v⟩ := qv
    by_cases h : p = q <;> simp [alookup, keys, h, ih]

theorem alookup_isSome_of_mem {β : Type} {c : List (Page × β)} {p : Page}
    (hp : p ∈ keys c) : ∃ v, alookup c p = some v := by
  cases h : alookup c p with
  | none => exact absurd hp (alookup_eq_none.mp h)
  | some v => exact ⟨v, rfl⟩

theorem alookup_mem {β : Type} {c : List (Page × β)} {p : Page} {v : β}
    (h : alookup c p = some v) : (p, v) ∈ c := by
  induction c with
  | nil => simp [alookup] at h
  | cons qv rest ih =>
    obtain ⟨q, w⟩ := qv
    by_cases hpq : p = q
    · subst hpq
      simp [alookup] at h
      simp [h]
    · simp [alookup, hpq] at h
      exact List.mem_cons_of_mem _ (ih h)

theorem keys_length {β : Type} (c : List (Page × β)) :
    (keys c).length = c.length := List.length_map _ _

/-! ### List-sum toolkit -/

theorem sum_map_add {α M : Type} [AddCommMonoid M] (l : List α) (f g : α → M) :
    (l.map (fun a => f a + g a)).sum = (l.map f).sum + (l.map g).sum := by
  induction l with
  | nil => simp
  | cons a l ih =>
    simp only [List.map_cons, List.sum_cons, ih]
    abel

theorem sum_map_const_q {α : Type} (l : List α) (c : ℚ) :
    (l.map (fun _ => c)).sum = (l.length : ℚ) * c := by
  induction l with
  | nil => simp
  | cons a l ih =>
    simp only [List.map_cons, List.sum_cons, ih, List.length_cons]
    push_cast
    ring

theorem sum_map_comm {α β : Type} (l : List α) (m : List β) (f : α → β → ℚ) :
    (l.map (fun a => (m.map (fun b => f a b)).sum)).sum
      = (m.map (fun b => (l.map (fun a => f a b)).sum)).sum := by
  induction l with
  | nil => simp
  | cons a l ih =>
    simp only [List.map_cons, List.sum_cons, ih]
    rw [← sum_map_add]

theorem sum_map_nonneg {α : Type} (l : List α) (f : α → ℚ)
    (h : ∀ a ∈ l, 0 ≤ f a) : 0 ≤ (l.map f).sum := by
  induction l with
  | nil => simp
  | cons a l ih =>
    simp only [List.map_cons, List.sum_cons]
    have ha := h a (List.mem_cons_self a l)
    have hl := ih (fun b hb => h b (List.mem_cons_of_mem a hb))
    linarith

theorem sum_map_le {α : Type} (l : List α) (f g : α → ℚ)
    (h : ∀ a ∈ l, f a ≤ g a) : (l.map f).sum ≤ (l.map g).sum := by
  induction l with
  | nil => simp
  | cons a l ih =>
    simp only [List.map_cons, List.sum_cons]
    have ha := h a (List.mem_cons_self a l)
    have hl := ih (fun b hb => h b (List.mem_cons_of_mem a hb))
    linarith

theorem abs_sum_map_le {α : Type} (l : List α) (f : α → ℚ) :
    |(l.map f).sum| ≤ (l.map (fun a => |f a|)).sum := by
  induction l with
  | nil => simp
  | cons a l ih =>
    simp only [List.map_cons, List.sum_cons]
    calc |f a + (l.map f).sum| ≤ |f a| + |(l.map f).sum| := abs_add _ _
      _ ≤ |f a| + (l.map (fun a => |f a|)).sum := by linarith

theorem single_le_sum_map {α : Type} [DecidableEq α] (l : List α) (f : α → ℚ)
    (h : ∀ a ∈ l, 0 ≤ f a) {a : α} (ha : a ∈ l) : f a ≤ (l.map f).sum := by
  induction l with
  | nil => cases ha
  | cons b l ih =>
    simp only [List.map_cons, List.sum_cons]
    rcases List.mem_cons.mp ha with h1 | h1
    · subst h1
      have := sum_map_nonneg l f (fun x hx => h x (List.mem_cons_of_mem a hx))
      linarith
    · have hb := h b (List.mem_cons_self b l)
      have := ih (fun x hx => h x (List.mem_cons_of_mem b hx)) h1
      linarith

theorem sum_map_ite_eq {M : Type} [AddCommMonoid M] (l : List Page)
    (hnd : l.Nodup) {a : Page} (ha : a ∈ l) (c : Page → M) :
    (l.map (fun p => if p = a then c p else 0)).sum = c a := by
  induction l with
  | nil => cases ha
  | cons b l ih =>
    rcases List.nodup_cons.mp hnd with ⟨hb, hnd'⟩
    simp only [List.map_cons, List.sum_cons]
    rcases List.mem_cons.mp ha with h1 | h1
    · subst h1
      have : (l.map (fun p => if p = a then c p else 0)).sum = 0 := by
        rw [List.sum_eq_zero]
        intro x hx
        rcases List.mem_map.mp hx with ⟨p, hp, hpx⟩
        have : p ≠ a := fun h => hb (h ▸ hp)
        simp [this] at hpx
        exact hpx.symm
      simp [this]
    · have hba : b ≠ a := fun h => hb (h ▸ h1)
      simp [hba, ih hnd' h1]

theorem sum_map_indicator (l : List Page) (L : List Page) (c : ℚ)
    (hsub : ∀ t ∈ L, t ∈ l) (hLnd : L.Nodup) (hlnd : l.Nodup) :
    (l.map (fun p => if p ∈ L then c else 0)).sum = (L.length : ℚ) * c := by
  induction L with
  | nil => simp
  | cons a L ih =>
    rcases List.nodup_cons.mp hLnd with ⟨haL, hLnd'⟩
    have hstep : (l.map (fun p => if p ∈ a :: L then c else 0))
        = l.map (fun p => (if p = a then c else 0) + (if p ∈ L then c else 0)) := by
      apply List.map_congr_left
      intro p _
      by_cases h1 : p = a
      · subst h1
        simp [haL]
      · by_cases h2 : p ∈ L <;> simp [h1, h2]
    rw [hstep, sum_map_add,
      sum_map_ite_eq l hlnd (hsub a (List.mem_cons_self a L)) (fun _ => c),
      ih (fun t ht => hsub t (List.mem_cons_of_mem a ht)) hLnd']
    simp only [List.length_cons]
    push_cast
    ring

theorem sum_map_count (l : List Page) (hnd : l.Nodup) (L : List Page)
    (hsub : ∀ t ∈ L, t ∈ l) :
    (l.map (fun p => L.count p)).sum = L.length := by
  induction L with
  | nil => simp
  | cons a L ih =>
    have hstep : (l.map (fun p => (a :: L).count p))
        = l.map (fun p => (if p = a then 1 else 0) + L.count p) := by
      apply List.map_congr_left
      intro p _
      rw [List.count_cons]
      by_cases h : p = a
      · subst h
        simp [Nat.add_comm]
      · simp [h, Ne.symm h, Nat.add_comm]
    rw [hstep, sum_map_add, sum_map_ite_eq l hnd (hsub a (List.mem_cons_self a L)) (fun _ => 1),
      ih (fun t ht => hsub t (List.mem_cons_of_mem a ht))]
    simp [Nat.add_comm]

/-! ### Facts about `transition_model` -/

/-- Decidability of the dict well-formedness predicate. -/
instance (corpus : Corpus) : Decidable (WF corpus) := by
  unfold WF
  infer_instance

/-- Decidability of the graph invariants. -/
instance (corpus : Corpus) : Decidable (Inv corpus) := by
  unfold Inv
  infer_instance

theorem transition_model_eq {corpus : Corpus} {page : Page} {L : List Page}
    (hL : alookup corpus page = some L) (d : ℚ) :
    transition_model corpus page d =
      (if L = [] then
        Except.ok ((keys corpus).map (fun p => (p, 1 / (corpus.length : ℚ))))
      else
        Except.ok ((keys corpus).map (fun p =>
          (p, (1 - d) / (corpus.length : ℚ) +
            if p ∈ L then d / (L.length : ℚ) else 0)))) := by
  simp [transition_model, hL]

theorem length_pos_of_mem_keys {β : Type} {c : List (Page × β)} {p : Page}
    (hp : p ∈ keys c) : 0 < c.length := by
  rw [← keys_length c]
  exact List.length_pos_of_mem hp

theorem corpus_cast_ne_zero {β : Type} {c : List (Page × β)} {p : Page}
    (hp : p ∈ keys c) : ((c.length : ℚ)) ≠ 0 := by
  have := length_pos_of_mem_keys hp
  positivity

/-- Links of a page under the invariants: contained in the key set and
duplicate-free. -/
theorem links_sub_of_inv {corpus : Corpus} (hInv : Inv corpus) {page : Page}
    {L : List Page} (hL : alookup corpus page = some L) :
    (∀ t ∈ L, t ∈ keys corpus) ∧ L.Nodup := by
  have hmem : (page, L) ∈ corpus := alookup_mem hL
  exact ⟨(hInv.2 (page, L) hmem).1, (hInv.2 (page, L) hmem).2.1⟩

/-- C2: for every graph satisfying the graph invariants, every page that
is a key of the graph, and every damping factor `d ∈ (0,1)`,
`transition_model` assigns to every page `p` of the corpus of size `N`
the probability `(1−d)/N + d/k` if the current page's link set `L` is
non-empty with `|L| = k` and `p ∈ L`; `(1−d)/N` if `L` is non-empty and
`p ∉ L`; and `1/N` for every page (no damping) when the current page has
no outbound links. -/
theorem C2_transition_model_values (corpus : Corpus) (page : Page) (d : ℚ)
    (hInv : Inv corpus) (hp : page ∈ keys corpus) (hd0 : 0 < d) (hd1 : d < 1) :
    ∃ probs, transition_model corpus page d = Except.ok probs ∧
      ∀ p ∈ keys corpus, alookup probs p = some
        (if corpusLinks corpus page = [] then 1 / (corpus.length : ℚ)
         else if p ∈ corpusLinks corpus page then
           (1 - d) / (corpus.length : ℚ) + d / ((corpusLinks corpus page).length : ℚ)
         else (1 - d) / (corpus.length : ℚ)) := by
  obtain ⟨L, hL⟩ := alookup_isSome_of_mem hp
  have hcl : corpusLinks corpus page = L := by simp [corpusLinks, hL]
  rw [hcl]
  by_cases hLe : L = []
  · refine ⟨_, by rw [transition_model_eq hL d, if_pos hLe], ?_⟩
    intro p hpk
    rw [alookup_map_self _ _ hpk, if_pos hLe]
  · refine ⟨_, by rw [transition_model_eq hL d, if_neg hLe], ?_⟩
    intro p hpk
    rw [alookup_map_self _ _ hpk, if_neg hLe]
    by_cases hpL : p ∈ L <;> simp [hpL]

/-- Witness for C2 on the two-page graph `1 ↔ 2` at `d = 17/20`. -/
theorem C2_witness :
    ∃ probs,
      transition_model [("1", ["2"]), ("2", ["1"])] "1" (17 / 20) = Except.ok probs ∧
      ∀ p ∈ keys ([("1", ["2"]), ("2", ["1"])] : Corpus), alookup probs p = some
        (if corpusLinks [("1", ["2"]), ("2", ["1"])] "1" = [] then
          1 / (([("1", ["2"]), ("2", ["1"])] : Corpus).length : ℚ)
         else if p ∈ corpusLinks [("1", ["2"]), ("2", ["1"])] "1" then
           (1 - 17 / 20) / (([("1", ["2"]), ("2", ["1"])] : Corpus).length : ℚ) +
             (17 / 20) / ((corpusLinks [("1", ["2"]), ("2", ["1"])] "1").length : ℚ)
         else (1 - 17 / 20) / (([("1", ["2"]), ("2", ["1"])] : Corpus).length : ℚ)) :=
  C2_transition_model_values [("1", ["2"]), ("2", ["1"])] "1" (17 / 20)
    (by decide) (by decide) (by norm_num) (by norm_num)

/-- C10: for every non-empty graph and every page that is not one of its
keys, `transition_model` does not return a distribution but fails with a
`KeyError` at the access of the page's link set. -/
theorem C10_transition_model_keyError (corpus : Corpus) (page : Page) (d : ℚ)
    (hne : corpus ≠ []) (hp : page ∉ keys corpus) :
    transition_model corpus page d = Except.error PyErr.keyError := by
  have h : alookup corpus page = none := alookup_eq_none.mpr hp
  simp [transition_model, h]

/-- Witness for C10: page `"3"` is not a key of the two-page graph. -/
theorem C10_witness :
    transition_model [("1", ["2"]), ("2", ["1"])] "3" (17 / 20)
      = Except.error PyErr.keyError :=
  C10_transition_model_keyError [("1", ["2"]), ("2", ["1"])] "3" (17 / 20)
    (by decide) (by decide)

/-- C5: for every graph satisfying the graph invariants, every page that
is a key, and every damping factor `d ∈ (0,1)`, `transition_model`
returns a table whose domain is exactly the graph's key set, whose
values are all non-negative, and whose values sum to `1` (exact
arithmetic). -/
theorem C5_transition_model_distribution (corpus : Corpus) (page : Page) (d : ℚ)
    (hInv : Inv corpus) (hp : page ∈ keys corpus) (hd0 : 0 < d) (hd1 : d < 1) :
    ∃ probs, transition_model corpus page d = Except.ok probs ∧
      keys probs = keys corpus ∧ (∀ pv ∈ probs, 0 ≤ pv.2) ∧
      (probs.map Prod.snd).sum = 1 := by
  obtain ⟨L, hL⟩ := alookup_isSome_of_mem hp
  have hN : ((corpus.length : ℚ)) ≠ 0 := corpus_cast_ne_zero hp
  have hN0 : (0 : ℚ) < (corpus.length : ℚ) := by
    have := length_pos_of_mem_keys hp
    positivity
  by_cases hLe : L = []
  · refine ⟨_, by rw [transition_model_eq hL d, if_pos hLe], keys_map_self _ _, ?_, ?_⟩
    · intro pv hpv
      rcases List.mem_map.mp hpv with ⟨p, _, rfl⟩
      positivity
    · rw [values_map_self, sum_map_const_q, keys_length]
      field_simp
  · have hsub := (links_sub_of_inv hInv hL).1
    have hLnd := (links_sub_of_inv hInv hL).2
    have hk : ((L.length : ℚ)) ≠ 0 := by
      have : 0 < L.length := List.length_pos_of_ne_nil hLe
      positivity
    refine ⟨_, by rw [transition_model_eq hL d, if_neg hLe], keys_map_self _ _, ?_, ?_⟩
    · intro pv hpv
      rcases List.mem_map.mp hpv with ⟨p, _, rfl⟩
      have h1 : (0 : ℚ) ≤ (1 - d) / (corpus.length : ℚ) := by
        apply div_nonneg <;> linarith
      have h2 : (0 : ℚ) ≤ if p ∈ L then d / (L.length : ℚ) else 0 := by
        by_cases hpL : p ∈ L
        · simp only [if_pos hpL]
          positivity
        · simp [hpL]
      exact add_nonneg h1 h2
    · rw [values_map_self, sum_map_add, sum_map_const_q, keys_length,
        sum_map_indicator (keys corpus) L (d / (L.length : ℚ)) hsub hLnd hInv.1]
      field_simp

/-- Witness for C5 on the three-page graph `1 → 2 → 1`, `3` a dead end,
at the dead end. -/
theorem C5_witness :
    ∃ probs,
      transition_model [("1", ["2"]), ("2", ["1"]), ("3", [])] "3" (17 / 20)
        = Except.ok probs ∧
      keys probs = keys ([("1", ["2"]), ("2", ["1"]), ("3", [])] : Corpus) ∧
      (∀ pv ∈ probs, 0 ≤ pv.2) ∧ (probs.map Prod.snd).sum = 1 :=
  C5_transition_model_distribution [("1", ["2"]), ("2", ["1"]), ("3", [])] "3"
    (17 / 20) (by decide) (by decide) (by norm_num) (by norm_num)

/-! ### Facts about `iterate_pagerank` -/

/-- The entries of one update pass, expressed through the spec's
per-source `contribution`. -/
theorem getv_new_ranks_of (corpus : Corpus) (d : ℚ) (pagerank : List (Page × ℚ))
    {page : Page} (hp : page ∈ keys corpus) :
    getv (new_ranks_of corpus d pagerank) page
      = (1 - d) / (corpus.length : ℚ)
        + d * ((keys corpus).map (fun q => contribution corpus pagerank q page)).sum := by
  rw [new_ranks_of, getv_map_self _ _ hp, new_rank_for]
  congr 1
  congr 1
  apply congrArg List.sum
  apply List.map_congr_left
  intro q _
  unfold contribution
  by_cases hLe : corpusLinks corpus q = []
  · have : page ∉ corpusLinks corpus q := by simp [hLe]
    simp [hLe, this]
  · by_cases hpL : page ∈ corpusLinks corpus q <;> simp [hLe, hpL]

/-- The early-exit convergence scan succeeds exactly when no page's
absolute change exceeds `0.001`. -/
theorem convergedCheck_iff (pagerank new_ranks : List (Page × ℚ)) (l : List Page) :
    convergedCheck pagerank new_ranks l = true
      ↔ ∀ p ∈ l, |getv new_ranks p - getv pagerank p| ≤ 1 / 1000 := by
  induction l with
  | nil => simp [convergedCheck]
  | cons a l ih =>
    by_cases h : 1 / 1000 < |getv new_ranks a - getv pagerank a|
    · simp only [convergedCheck, if_pos h]
      constructor
      · intro hfalse
        exact (Bool.false_ne_true hfalse).elim
      · intro hall
        exact absurd (hall a (List.mem_cons_self a l)) (not_le.mpr h)
    · simp only [convergedCheck, if_neg h, ih]
      constructor
      · intro hall p hp
        rcases List.mem_cons.mp hp with h1 | h1
        · subst h1
          exact not_lt.mp h
        · exact hall p h1
      · intro hall p hp
        exact hall p (List.mem_cons_of_mem a hp)

/-- C1: for every non-empty graph and damping factor `d ∈ (0,1)`,
`iterate_pagerank` starts the loop from the table assigning every page
rank `1/N`, and each pass computes a fresh table whose value at each
page `p` is `(1−d)/N + d · Σ_q contribution(q→p)`, a function of the
previous iteration's table alone (the update is simultaneous, not in
place), with `contribution` exactly as the spec states it. -/
theorem C1_iterate_init_and_update (corpus : Corpus) (d : ℚ) (fuel : Nat)
    (hne : corpus ≠ []) (hd0 : 0 < d) (hd1 : d < 1) :
    (iterate_pagerank corpus d fuel
      = iterLoop corpus d fuel
          ((keys corpus).map (fun page => (page, 1 / (corpus.length : ℚ))))) ∧
    (∀ page ∈ keys corpus,
      getv ((keys corpus).map (fun page => (page, 1 / (corpus.length : ℚ)))) page
        = 1 / (corpus.length : ℚ)) ∧
    (∀ pagerank : List (Page × ℚ), ∀ page ∈ keys corpus,
      getv (new_ranks_of corpus d pagerank) page
        = (1 - d) / (corpus.length : ℚ)
          + d * ((keys corpus).map (fun q => contribution corpus pagerank q page)).sum) := by
  refine ⟨rfl, ?_, ?_⟩
  · intro page hp
    exact getv_map_self _ _ hp
  · intro pagerank page hp
    exact getv_new_ranks_of corpus d pagerank hp

/-- Witness for C1: one update pass on the two-page graph `1 ↔ 2` from
the uniform table. -/
theorem C1_witness :
    getv (new_ranks_of [("1", ["2"]), ("2", ["1"])] (17 / 20)
        [("1", (1 : ℚ) / 2), ("2", (1 : ℚ) / 2)]) "1"
      = (1 - 17 / 20) / (([("1", ["2"]), ("2", ["1"])] : Corpus).length : ℚ)
        + (17 / 20) * ((keys ([("1", ["2"]), ("2", ["1"])] : Corpus)).map
            (fun q => contribution [("1", ["2"]), ("2", ["1"])]
              [("1", (1 : ℚ) / 2), ("2", (1 : ℚ) / 2)] q "1")).sum :=
  (C1_iterate_init_and_update [("1", ["2"]), ("2", ["1"])] (17 / 20) 3
    (by decide) (by norm_num) (by norm_num)).2.2
    [("1", (1 : ℚ) / 2), ("2", (1 : ℚ) / 2)] "1" (by decide)

/-- C3: each pass of the loop returns the freshly computed table exactly
when every page's absolute change from the previous table is at most
`0.001`; otherwise the fresh table becomes the current one and another
iteration runs. -/
theorem C3_convergence_control (corpus : Corpus) (d : ℚ) (fuel : Nat)
    (pagerank : List (Page × ℚ)) :
    iterLoop corpus d (fuel + 1) pagerank
      = if ∀ page ∈ keys pagerank,
            |getv (new_ranks_of corpus d pagerank) page - getv pagerank page| ≤ 1 / 1000
        then some (new_ranks_of corpus d pagerank)
        else iterLoop corpus d fuel (new_ranks_of corpus d pagerank) := by
  conv_lhs => rw [iterLoop]
  have hiff := convergedCheck_iff pagerank (new_ranks_of corpus d pagerank) (keys pagerank)
  by_cases hc : ∀ page ∈ keys pagerank,
      |getv (new_ranks_of corpus d pagerank) page - getv pagerank page| ≤ 1 / 1000
  · rw [if_pos (hiff.mpr hc), if_pos hc]
  · rw [if_neg (fun h => hc (hiff.mp h)), if_neg hc]

/-! ### Mass conservation of the update step -/

/-- The (column-stochastic) weight with which page `q` passes rank to
page `p` in one update: uniform `1/N` from dead ends, `1/|links(q)|` to
linked pages, `0` otherwise. -/
def mweight (corpus : Corpus) (q p : Page) : ℚ :=
  if corpusLinks corpus q = [] then 1 / (corpus.length : ℚ)
  else if p ∈ corpusLinks corpus q then 1 / ((corpusLinks corpus q).length : ℚ)
  else 0

theorem mweight_nonneg (corpus : Corpus) (q p : Page) : 0 ≤ mweight corpus q p := by
  unfold mweight
  by_cases h1 : corpusLinks corpus q = []
  · simp only [if_pos h1]
    positivity
  · by_cases h2 : p ∈ corpusLinks corpus q
    · simp only [if_neg h1, if_pos h2]
      positivity
    · simp [h1, h2]

/-- Under the graph invariants each page's outgoing weights over the
whole key set sum to `1`. -/
theorem sum_mweight (corpus : Corpus) (hInv : Inv corpus) {q : Page}
    (hq : q ∈ keys corpus) :
    ((keys corpus).map (fun p => mweight corpus q p)).sum = 1 := by
  obtain ⟨L, hL⟩ := alookup_isSome_of_mem hq
  have hcl : corpusLinks corpus q = L := by simp [corpusLinks, hL]
  have hN : ((corpus.length : ℚ)) ≠ 0 := corpus_cast_ne_zero hq
  by_cases hLe : L = []
  · have : (keys corpus).map (fun p => mweight corpus q p)
        = (keys corpus).map (fun _ => 1 / (corpus.length : ℚ)) := by
      apply List.map_congr_left
      intro p _
      simp [mweight, hcl, hLe]
    rw [this, sum_map_const_q, keys_length]
    field_simp
  · have hk : ((L.length : ℚ)) ≠ 0 := by
      have : 0 < L.length := List.length_pos_of_ne_nil hLe
      positivity
    have hsub := (links_sub_of_inv hInv hL).1
    have hLnd := (links_sub_of_inv hInv hL).2
    have : (keys corpus).map (fun p => mweight corpus q p)
        = (keys corpus).map (fun p => if p ∈ L then 1 / (L.length : ℚ) else 0) := by
      apply List.map_congr_left
      intro p _
      simp [mweight, hcl, hLe]
    rw [this, sum_map_indicator (keys corpus) L _ hsub hLnd hInv.1]
    field_simp

/-- The code's per-source term in the inner loop is exactly
`mweight q p * rank(q)`. -/
theorem getv_new_ranks_matrix (corpus : Corpus) (d : ℚ)
    (pagerank : List (Page × ℚ)) {page : Page} (hp : page ∈ keys corpus) :
    getv (new_ranks_of corpus d pagerank) page
      = (1 - d) / (corpus.length : ℚ)
        + d * ((keys corpus).map
            (fun q => mweight corpus q page * getv pagerank q)).sum := by
  rw [new_ranks_of, getv_map_self _ _ hp, new_rank_for]
  congr 2
  apply congrArg List.sum
  apply List.map_congr_left
  intro q _
  unfold mweight
  by_cases hLe : corpusLinks corpus q = []
  · rw [if_pos hLe, if_pos hLe]
    ring
  · by_cases hpL : page ∈ corpusLinks corpus q
    · rw [if_neg hLe, if_neg hLe, if_pos hpL, if_pos hpL]
      ring
    · simp [hLe, hpL]

/-- One update pass turns total mass `m` into `(1-d) + d·m`; in
particular it preserves total mass `1` exactly. -/
theorem mass_step (corpus : Corpus) (d : ℚ) (pagerank : List (Page × ℚ))
    (hInv : Inv corpus) (hne : corpus ≠ []) :
    ((keys corpus).map (fun p => getv (new_ranks_of corpus d pagerank) p)).sum
      = (1 - d) + d * ((keys corpus).map (fun q => getv pagerank q)).sum := by
  have hN : ((corpus.length : ℚ)) ≠ 0 := by
    have : corpus.length ≠ 0 := fun h => hne (List.length_eq_zero.mp h)
    exact_mod_cast this
  have h1 : (keys corpus).map (fun p => getv (new_ranks_of corpus d pagerank) p)
      = (keys corpus).map (fun p => (1 - d) / (corpus.length : ℚ)
          + d * ((keys corpus).map
              (fun q => mweight corpus q p * getv pagerank q)).sum) := by
    apply List.map_congr_left
    intro p hp
    exact getv_new_ranks_matrix corpus d pagerank hp
  rw [h1, sum_map_add, sum_map_const_q, keys_length]
  have h2 : ((keys corpus).map (fun p => d * ((keys corpus).map
      (fun q => mweight corpus q p * getv pagerank q)).sum)).sum
      = d * ((keys corpus).map (fun p => ((keys corpus).map
          (fun q => mweight corpus q p * getv pagerank q)).sum)).sum :=
    List.sum_map_mul_left _ _ _
  rw [h2, sum_map_comm]
  have h3 : (keys corpus).map (fun q => ((keys corpus).map
      (fun p => mweight corpus q p * getv pagerank q)).sum)
      = (keys corpus).map (fun q => getv pagerank q) := by
    apply List.map_congr_left
    intro q hq
    have : ((keys corpus).map (fun p => mweight corpus q p * getv pagerank q)).sum
        = ((keys corpus).map (fun p => mweight corpus q p)).sum * getv pagerank q :=
      List.sum_map_mul_right _ _ _
    rw [this, sum_mweight corpus hInv hq, one_mul]
  rw [h3]
  field_simp

/-- The sum of the entries of the fresh table equals the sum of its
values over the key set. -/
theorem values_sum_new_ranks (corpus : Corpus) (d : ℚ)
    (pagerank : List (Page × ℚ)) :
    ((new_ranks_of corpus d pagerank).map Prod.snd).sum
      = ((keys corpus).map (fun p => getv (new_ranks_of corpus d pagerank) p)).sum := by
  rw [new_ranks_of, values_map_self]
  apply congrArg List.sum
  symm
  apply List.map_congr_left
  intro p hp
  rw [← new_ranks_of]
  exact getv_map_self _ _ hp

/-- Any table the loop returns carries total mass `1`, provided the
table it starts from does. -/
theorem iterLoop_mass (corpus : Corpus) (d : ℚ) (hInv : Inv corpus)
    (hne : corpus ≠ []) :
    ∀ fuel (pagerank res : List (Page × ℚ)),
      ((keys corpus).map (fun p => getv pagerank p)).sum = 1 →
      iterLoop corpus d fuel pagerank = some res →
      (res.map Prod.snd).sum = 1 := by
  intro fuel
  induction fuel with
  | zero =>
    intro pagerank res _ hres
    simp [iterLoop] at hres
  | succ fuel ih =>
    intro pagerank res hmass hres
    have hstep : ((keys corpus).map (fun p => getv (new_ranks_of corpus d pagerank) p)).sum
        = 1 := by
      rw [mass_step corpus d pagerank hInv hne, hmass]
      ring
    rw [iterLoop] at hres
    by_cases hc : convergedCheck pagerank (new_ranks_of corpus d pagerank) (keys pagerank)
      = true
    · rw [if_pos hc] at hres
      cases hres
      rw [values_sum_new_ranks]
      exact hstep
    · rw [if_neg hc] at hres
      exact ih (new_ranks_of corpus d pagerank) res hstep hres

/-- C7: for every non-empty graph satisfying the graph invariants and
every damping factor `d ∈ (0,1)`, the values of any table returned by
`iterate_pagerank` sum to exactly `1` (each update pass preserves the
total mass of `1` in exact arithmetic, so the result is well within the
stated `1e-3` tolerance). -/
theorem C7_iterate_mass (corpus : Corpus) (d : ℚ) (fuel : Nat)
    (res : List (Page × ℚ)) (hInv : Inv corpus) (hne : corpus ≠ [])
    (hd0 : 0 < d) (hd1 : d < 1)
    (hres : iterate_pagerank corpus d fuel = some res) :
    (res.map Prod.snd).sum = 1 := by
  have hN : ((corpus.length : ℚ)) ≠ 0 := by
    have : corpus.length ≠ 0 := fun h => hne (List.length_eq_zero.mp h)
    exact_mod_cast this
  apply iterLoop_mass corpus d hInv hne fuel _ res _ hres
  have : (keys corpus).map
      (fun p => getv ((keys corpus).map (fun page => (page, 1 / (corpus.length : ℚ)))) p)
      = (keys corpus).map (fun _ => 1 / (corpus.length : ℚ)) := by
    apply List.map_congr_left
    intro p hp
    exact getv_map_self _ _ hp
  rw [this, sum_map_const_q, keys_length]
  field_simp

/-- Witness for C7: the two-page graph `1 ↔ 2` converges to the uniform
table, whose entries sum to `1`. -/
theorem C7_witness :
    (([("1", (1 : ℚ) / 2), ("2", (1 : ℚ) / 2)]).map Prod.snd).sum = 1 :=
  C7_iterate_mass [("1", ["2"]), ("2", ["1"])] (17 / 20) 1
    [("1", (1 : ℚ) / 2), ("2", (1 : ℚ) / 2)] (by decide) (by decide)
    (by norm_num) (by norm_num)
    (by
      simp +decide only [iterate_pagerank, iterLoop, new_ranks_of, new_rank_for,
        convergedCheck, keys, getv, corpusLinks, alookup, List.map, List.sum,
        Option.getD]
      norm_num)

/-! ### Input validation behaviour (C8) -/

/-- Counterexample to C8 as stated: invoked on the empty graph,
`iterate_pagerank` does not fail fast — the `1/N` of the initialisation
comprehension is never evaluated, the loop body runs over no pages, the
convergence scan over the empty dict succeeds, and the empty rank table
is returned. -/
theorem C8_counterexample :
    iterate_pagerank [] (17 / 20) 1 = some [] := by
  simp +decide only [iterate_pagerank, iterLoop, new_ranks_of, new_rank_for,
    convergedCheck, keys, getv, corpusLinks, alookup, List.map, List.sum, Option.getD]

/-- C8 as amended: neither estimator validates its inputs.  On the
empty graph `sample_pagerank` does fail fast (an `IndexError` at the
uniform starting choice) but `iterate_pagerank` returns the empty rank
table instead of failing; a damping factor outside `(0,1)` is accepted
and a rank table is returned (shown at `d = 2`); and a sample count of
`0` fails only with a `ZeroDivisionError` at the final division, not
with a descriptive validation error. -/
theorem C8_no_input_validation :
    (∀ (d : ℚ) (n i0 : Nat) (draws : Nat → ℚ),
      sample_pagerank [] d n i0 draws = Except.error PyErr.indexError) ∧
    (∀ (d : ℚ) (fuel : Nat), iterate_pagerank [] d (fuel + 1) = some []) ∧
    (iterate_pagerank [("1", [])] 2 1 = some [("1", 1)]) ∧
    (∀ (corpus : Corpus) (d : ℚ) (i0 : Nat) (draws : Nat → ℚ),
      i0 < (keys corpus).length →
      sample_pagerank corpus d 0 i0 draws = Except.error PyErr.zeroDivisionError) := by
  refine ⟨?_, ?_, ?_, ?_⟩
  · intro d n i0 draws
    simp [sample_pagerank, keys]
  · intro d fuel
    show iterLoop [] d (fuel + 1) [] = some []
    rw [iterLoop]
    simp [convergedCheck, keys, new_ranks_of]
  · simp +decide only [iterate_pagerank, iterLoop, new_ranks_of, new_rank_for,
      convergedCheck, keys, getv, corpusLinks, alookup, List.map, List.sum,
      Option.getD]
    norm_num
  · intro corpus d i0 draws hi0
    rw [sample_pagerank, List.getElem?_eq_getElem hi0]
    simp [sampleLoop]

/-- Witness for C8 as amended, at concrete inputs for each conjunct. -/
theorem C8_witness :
    sample_pagerank [] (17 / 20) 3 0 (fun _ => 0) = Except.error PyErr.indexError ∧
    iterate_pagerank [] (17 / 20) 1 = some [] ∧
    iterate_pagerank [("1", [])] 2 1 = some [("1", 1)] ∧
    sample_pagerank [("1", [])] (17 / 20) 0 0 (fun _ => 0)
      = Except.error PyErr.zeroDivisionError :=
  ⟨C8_no_input_validation.1 (17 / 20) 3 0 (fun _ => 0),
   C8_no_input_validation.2.1 (17 / 20) 0,
   C8_no_input_validation.2.2.1,
   C8_no_input_validation.2.2.2 [("1", [])] (17 / 20) 0 (fun _ => 0) (by decide)⟩

/-! ### The sampling estimator -/

theorem pickCum_mem : ∀ (l : List (Page × ℚ)) (t : ℚ) (p : Page),
    pickCum l t = some p → p ∈ keys l := by
  intro l
  induction l with
  | nil =>
    intro t p h
    simp [pickCum] at h
  | cons qw rest ih =>
    intro t p h
    obtain ⟨q, w⟩ := qw
    rw [pickCum] at h
    by_cases hc : t < w ∨ rest = []
    · rw [if_pos hc] at h
      cases h
      simp [keys]
    · rw [if_neg hc] at h
      exact List.mem_cons_of_mem _ (ih (t - w) p h)

theorem pickCum_isSome : ∀ (l : List (Page × ℚ)), l ≠ [] → ∀ t : ℚ,
    ∃ p, pickCum l t = some p := by
  intro l
  induction l with
  | nil => intro h; exact absurd rfl h
  | cons qw rest ih =>
    intro _ t
    obtain ⟨q, w⟩ := qw
    rw [pickCum]
    by_cases hc : t < w ∨ rest = []
    · exact ⟨q, if_pos hc⟩
    · have hrest : rest ≠ [] := fun h => hc (Or.inr h)
      obtain ⟨p, hp⟩ := ih hrest (t - w)
      exact ⟨p, by rw [if_neg hc]; exact hp⟩

theorem weightedChoice_mem {l : List (Page × ℚ)} {r : ℚ} {p : Page}
    (h : weightedChoice l r = some p) : p ∈ keys l :=
  pickCum_mem l _ p h

theorem weightedChoice_isSome (l : List (Page × ℚ)) (hl : l ≠ []) (r : ℚ) :
    ∃ p, weightedChoice l r = some p :=
  pickCum_isSome l hl _

/-- On any key of the corpus the transition model succeeds and returns
a non-empty table over exactly the corpus keys. -/
theorem transition_ok_of_mem (corpus : Corpus) (d : ℚ) {cur : Page}
    (hcur : cur ∈ keys corpus) :
    ∃ probs, transition_model corpus cur d = Except.ok probs ∧
      keys probs = keys corpus ∧ probs ≠ [] := by
  obtain ⟨L, hL⟩ := alookup_isSome_of_mem hcur
  have hkne : keys corpus ≠ [] := List.ne_nil_of_mem hcur
  by_cases hLe : L = []
  · refine ⟨_, by rw [transition_model_eq hL d, if_pos hLe], keys_map_self _ _, ?_⟩
    simpa using hkne
  · refine ⟨_, by rw [transition_model_eq hL d, if_neg hLe], keys_map_self _ _, ?_⟩
    simpa using hkne

theorem keys_incr (counts : List (Page × Nat)) (p : Page) :
    keys (incr counts p) = keys counts := by
  unfold keys incr
  rw [List.map_map]
  apply List.map_congr_left
  intro qc _
  by_cases h : qc.1 = p <;> simp [h]

/-- The visit-recording loop, related to the spec-side trajectory: it
succeeds, the trajectory is the `steps` pages visited (all corpus
keys, starting at the current page), and every counter entry grows by
exactly the number of occurrences of its key in the trajectory. -/
theorem sampleLoop_spec (corpus : Corpus) (d : ℚ) (draws : Nat → ℚ) :
    ∀ (steps k : Nat) (cur : Page) (counts : List (Page × Nat)),
    cur ∈ keys corpus →
    ∃ L, walkList corpus d draws steps k cur = some L ∧
      (∀ t ∈ L, t ∈ keys corpus) ∧ L.length = steps ∧
      (steps ≠ 0 → L.head? = some cur) ∧
      sampleLoop corpus d draws steps k cur counts
        = Except.ok (counts.map (fun qc => (qc.1, qc.2 + L.count qc.1))) := by
  intro steps
  induction steps with
  | zero =>
    intro k cur counts _
    refine ⟨[], rfl, by simp, rfl, by simp, ?_⟩
    rw [sampleLoop]
    congr 1
    symm
    calc counts.map (fun qc => (qc.1, qc.2 + List.count qc.1 []))
        = counts.map (fun qc => (qc.1, qc.2)) := by simp
      _ = counts := by simp
  | succ steps ih =>
    intro k cur counts hcur
    obtain ⟨probs, hprobs, hpk, hpne⟩ := transition_ok_of_mem corpus d hcur
    obtain ⟨next, hnext⟩ := weightedChoice_isSome probs hpne (draws k)
    have hnextk : next ∈ keys corpus := hpk ▸ weightedChoice_mem hnext
    obtain ⟨L, hwalk, hLk, hLlen, _, hloop⟩ :=
      ih (k + 1) next (incr counts cur) hnextk
    refine ⟨cur :: L, ?_, ?_, by simp [hLlen], fun _ => rfl, ?_⟩
    · rw [walkList, hprobs]
      show (match weightedChoice probs (draws k) with
        | none => none
        | some next =>
          (walkList corpus d draws steps (k + 1) next).map
            (fun rest => cur :: rest)) = some (cur :: L)
      rw [hnext]
      show (walkList corpus d draws steps (k + 1) next).map (fun rest => cur :: rest)
        = some (cur :: L)
      rw [hwalk]
      rfl
    · intro t ht
      rcases List.mem_cons.mp ht with h | h
      · exact h ▸ hcur
      · exact hLk t h
    · rw [sampleLoop, hprobs]
      show (match weightedChoice probs (draws k) with
        | none => Except.error PyErr.indexError
        | some next =>
          sampleLoop corpus d draws steps (k + 1) next (incr counts cur)) = _
      rw [hnext]
      show sampleLoop corpus d draws steps (k + 1) next (incr counts cur) = _
      rw [hloop]
      congr 1
      unfold incr
      rw [List.map_map]
      apply List.map_congr_left
      intro qc _
      by_cases h : qc.1 = cur
      · simp only [Function.comp_apply, if_pos h, List.count_cons, h]
        simp [Nat.add_assoc, Nat.add_comm 1]
      · simp only [Function.comp_apply, if_neg h, List.count_cons, h]
        simp [h, Ne.symm h]

/-- Full characterisation of `sample_pagerank` on in-range inputs: the
spec-side trajectory exists, starts at the drawn page, has one entry
per step, and the returned table maps every corpus page to its visit
count divided by `n`. -/
theorem sample_pagerank_spec (corpus : Corpus) (d : ℚ) (n i0 : Nat)
    (draws : Nat → ℚ) (hn : n ≠ 0) (hi0 : i0 < (keys corpus).length) :
    ∃ L, walkList corpus d draws n 0 ((keys corpus)[i0]) = some L ∧
      (∀ t ∈ L, t ∈ keys corpus) ∧ L.length = n ∧
      L.head? = some ((keys corpus)[i0]) ∧
      sample_pagerank corpus d n i0 draws
        = Except.ok ((keys corpus).map (fun p => (p, (L.count p : ℚ) / (n : ℚ)))) := by
  have hstart : (keys corpus)[i0] ∈ keys corpus := List.getElem_mem hi0
  obtain ⟨L, hwalk, hLk, hLlen, hhead, hloop⟩ :=
    sampleLoop_spec corpus d draws n 0 ((keys corpus)[i0])
      ((keys corpus).map (fun page => (page, (0 : Nat)))) hstart
  refine ⟨L, hwalk, hLk, hLlen, hhead hn, ?_⟩
  rw [sample_pagerank, List.getElem?_eq_getElem hi0]
  show (match sampleLoop corpus d draws n 0 ((keys corpus)[i0])
      ((keys corpus).map (fun page => (page, (0 : Nat)))) with
    | Except.error e => Except.error e
    | Except.ok counts =>
      if n = 0 then Except.error PyErr.zeroDivisionError
      else Except.ok (counts.map (fun (pc : Page × Nat) => (pc.1, (pc.2 : ℚ) / (n : ℚ))))) = _
  rw [hloop]
  show (if n = 0 then Except.error PyErr.zeroDivisionError
    else Except.ok ((((keys corpus).map (fun page => (page, (0 : Nat)))).map
        (fun qc => (qc.1, qc.2 + L.count qc.1))).map
          (fun (pc : Page × Nat) => (pc.1, (pc.2 : ℚ) / (n : ℚ))))) = _
  rw [if_neg hn]
  congr 1
  rw [List.map_map, List.map_map]
  apply List.map_congr_left
  intro p _
  simp

/-- C4: for every non-empty graph, damping factor `d ∈ (0,1)` and
sample count `n ≥ 1`, with the random draws modelled as inputs (`i0`
the uniform index of the starting page, `draws` the per-step uniform
variables), `sample_pagerank` starts at the drawn page, performs
exactly `n` steps — each recording a visit to the current page and then
drawing the successor by weighted choice from the current page's
transition model — and returns, for each page, visit count `/ n`. -/
theorem C4_sample_refinement (corpus : Corpus) (d : ℚ) (n i0 : Nat)
    (draws : Nat → ℚ) (hWF : WF corpus) (hn : 1 ≤ n)
    (hi0 : i0 < (keys corpus).length) (hd0 : 0 < d) (hd1 : d < 1) :
    ∃ L, walkList corpus d draws n 0 ((keys corpus)[i0]) = some L ∧
      L.length = n ∧ L.head? = some ((keys corpus)[i0]) ∧
      sample_pagerank corpus d n i0 draws
        = Except.ok ((keys corpus).map (fun p => (p, (L.count p : ℚ) / (n : ℚ)))) := by
  obtain ⟨L, h1, _, h3, h4, h5⟩ :=
    sample_pagerank_spec corpus d n i0 draws (by omega) hi0
  exact ⟨L, h1, h3, h4, h5⟩

/-- Witness for C4: two steps on the two-page graph `1 ↔ 2`, starting
index `0`, all draws `0`. -/
theorem C4_witness :
    ∃ L, walkList [("1", ["2"]), ("2", ["1"])] (17 / 20) (fun _ => 0) 2 0
        ((keys ([("1", ["2"]), ("2", ["1"])] : Corpus)).get ⟨0, by decide⟩) = some L ∧
      L.length = 2 ∧
      L.head? = some ((keys ([("1", ["2"]), ("2", ["1"])] : Corpus)).get ⟨0, by decide⟩) ∧
      sample_pagerank [("1", ["2"]), ("2", ["1"])] (17 / 20) 2 0 (fun _ => 0)
        = Except.ok ((keys ([("1", ["2"]), ("2", ["1"])] : Corpus)).map
            (fun p => (p, (L.count p : ℚ) / ((2 : Nat) : ℚ)))) :=
  C4_sample_refinement [("1", ["2"]), ("2", ["1"])] (17 / 20) 2 0 (fun _ => 0)
    (by decide) (by omega) (by decide) (by norm_num) (by norm_num)

/-- C6: whenever `sample_pagerank` returns a rank table, its values sum
to exactly `1` — the counters are integers totalling `n`, each divided
by `n`. -/
theorem C6_sample_mass (corpus : Corpus) (d : ℚ) (n i0 : Nat) (draws : Nat → ℚ)
    (t : List (Page × ℚ)) (hWF : WF corpus) (hn : 1 ≤ n)
    (ht : sample_pagerank corpus d n i0 draws = Except.ok t) :
    (t.map Prod.snd).sum = 1 := by
  by_cases hi0 : i0 < (keys corpus).length
  · obtain ⟨L, _, hLk, hLlen, _, hret⟩ :=
      sample_pagerank_spec corpus d n i0 draws (by omega) hi0
    rw [ht] at hret
    have hteq : t = (keys corpus).map (fun p => (p, (L.count p : ℚ) / (n : ℚ))) :=
      Except.ok.inj hret
    subst hteq
    rw [values_map_self]
    have hsplit : (keys corpus).map (fun p => (L.count p : ℚ) / (n : ℚ))
        = (keys corpus).map (fun p => (L.count p : ℚ) * (1 / (n : ℚ))) := by
      apply List.map_congr_left
      intro p _
      ring
    rw [hsplit, List.sum_map_mul_right _ _ _]
    have hcast : ((keys corpus).map (fun p => (L.count p : ℚ))).sum
        = (((keys corpus).map (fun p => L.count p)).sum : ℚ) := by
      rw [Nat.cast_list_sum, List.map_map]
      rfl
    rw [hcast, sum_map_count (keys corpus) hWF L hLk, hLlen]
    have : ((n : ℚ)) ≠ 0 := by
      have : n ≠ 0 := by omega
      exact_mod_cast this
    field_simp
  · rw [sample_pagerank,
      List.getElem?_eq_none (Nat.le_of_not_lt hi0)] at ht
    cases ht

/-- Witness for C6: the concrete two-step run of the C4 witness yields
the table `{1 ↦ 1, 2 ↦ 0}`, summing to `1`. -/
theorem C6_witness :
    (([("1", (1 : ℚ)), ("2", (0 : ℚ))] : List (Page × ℚ)).map Prod.snd).sum = 1 :=
  C6_sample_mass [("1", ["2"]), ("2", ["1"])] (17 / 20) 2 0 (fun _ => 0)
    [("1", (1 : ℚ)), ("2", (0 : ℚ))] (by decide) (by omega)
    (by
      norm_num +decide [sample_pagerank, sampleLoop, transition_model,
        weightedChoice, pickCum, totalWeight, incr, alookup, keys, getv,
        List.map, List.sum, Option.getD, List.getElem?_cons_zero])

/-! ### Termination of the iterative estimator (C9) -/

theorem sum_map_sub {α : Type} (l : List α) (f g : α → ℚ) :
    (l.map (fun a => f a - g a)).sum = (l.map f).sum - (l.map g).sum := by
  induction l with
  | nil => simp
  | cons a l ih =>
    simp only [List.map_cons, List.sum_cons, ih]
    ring

/-- `L¹` distance of two rank tables over the corpus key set. -/
def tdist (corpus : Corpus) (t1 t2 : List (Page × ℚ)) : ℚ :=
  ((keys corpus).map (fun p => |getv t1 p - getv t2 p|)).sum

theorem tdist_nonneg (corpus : Corpus) (t1 t2 : List (Page × ℚ)) :
    0 ≤ tdist corpus t1 t2 :=
  sum_map_nonneg _ _ (fun p _ => abs_nonneg _)

theorem abs_le_tdist (corpus : Corpus) (t1 t2 : List (Page × ℚ)) {p : Page}
    (hp : p ∈ keys corpus) :
    |getv t1 p - getv t2 p| ≤ tdist corpus t1 t2 :=
  single_le_sum_map _ _ (fun q _ => abs_nonneg _) hp

/-- One update pass is a `d`-contraction of the `L¹` distance, because
its matrix has non-negative entries and unit column sums (the graph
invariants make it column-stochastic). -/
theorem tdist_step_le (corpus : Corpus) (d : ℚ) (t1 t2 : List (Page × ℚ))
    (hInv : Inv corpus) (hd0 : 0 ≤ d) :
    tdist corpus (new_ranks_of corpus d t1) (new_ranks_of corpus d t2)
      ≤ d * tdist corpus t1 t2 := by
  have hptwise : ∀ p ∈ keys corpus,
      |getv (new_ranks_of corpus d t1) p - getv (new_ranks_of corpus d t2) p|
        ≤ d * ((keys corpus).map
            (fun q => mweight corpus q p * |getv t1 q - getv t2 q|)).sum := by
    intro p hp
    rw [getv_new_ranks_matrix corpus d t1 hp, getv_new_ranks_matrix corpus d t2 hp]
    have hdiff : (1 - d) / (corpus.length : ℚ)
          + d * ((keys corpus).map (fun q => mweight corpus q p * getv t1 q)).sum
        - ((1 - d) / (corpus.length : ℚ)
          + d * ((keys corpus).map (fun q => mweight corpus q p * getv t2 q)).sum)
        = d * ((keys corpus).map
            (fun q => mweight corpus q p * (getv t1 q - getv t2 q))).sum := by
      have hsums : ((keys corpus).map
            (fun q => mweight corpus q p * (getv t1 q - getv t2 q))).sum
          = ((keys corpus).map (fun q => mweight corpus q p * getv t1 q)).sum
            - ((keys corpus).map (fun q => mweight corpus q p * getv t2 q)).sum := by
        rw [← sum_map_sub]
        apply congrArg List.sum
        apply List.map_congr_left
        intro q _
        ring
      rw [hsums]
      ring
    rw [hdiff, abs_mul, abs_of_nonneg hd0]
    apply mul_le_mul_of_nonneg_left _ hd0
    calc |((keys corpus).map
        (fun q => mweight corpus q p * (getv t1 q - getv t2 q))).sum|
        ≤ ((keys corpus).map
            (fun q => |mweight corpus q p * (getv t1 q - getv t2 q)|)).sum :=
          abs_sum_map_le _ _
      _ = ((keys corpus).map
            (fun q => mweight corpus q p * |getv t1 q - getv t2 q|)).sum := by
          apply congrArg List.sum
          apply List.map_congr_left
          intro q _
          rw [abs_mul, abs_of_nonneg (mweight_nonneg corpus q p)]
  calc tdist corpus (new_ranks_of corpus d t1) (new_ranks_of corpus d t2)
      ≤ ((keys corpus).map (fun p => d * ((keys corpus).map
          (fun q => mweight corpus q p * |getv t1 q - getv t2 q|)).sum)).sum :=
        sum_map_le _ _ _ hptwise
    _ = d * ((keys corpus).map (fun p => ((keys corpus).map
          (fun q => mweight corpus q p * |getv t1 q - getv t2 q|)).sum)).sum :=
        List.sum_map_mul_left _ _ _
    _ = d * ((keys corpus).map (fun q => ((keys corpus).map
          (fun p => mweight corpus q p * |getv t1 q - getv t2 q|)).sum)).sum := by
        rw [sum_map_comm]
    _ = d * tdist corpus t1 t2 := by
        apply congrArg (fun s => d * s)
        apply congrArg List.sum
        apply List.map_congr_left
        intro q hq
        rw [List.sum_map_mul_right _ _ _, sum_mweight corpus hInv hq, one_mul]

/-- If after `k` further contractions the residual would fall below the
tolerance, the loop halts within `k+1` more passes. -/
theorem iterLoop_halts (corpus : Corpus) (d : ℚ) (hInv : Inv corpus)
    (hd0 : 0 ≤ d) :
    ∀ (k : Nat) (pagerank : List (Page × ℚ)), keys pagerank = keys corpus →
      d ^ k * tdist corpus (new_ranks_of corpus d pagerank) pagerank ≤ 1 / 1000 →
      (iterLoop corpus d (k + 1) pagerank).isSome := by
  intro k
  induction k with
  | zero =>
    intro pagerank hkeys hres
    rw [pow_zero, one_mul] at hres
    have hcheck : convergedCheck pagerank (new_ranks_of corpus d pagerank)
        (keys pagerank) = true := by
      rw [convergedCheck_iff]
      intro p hp
      calc |getv (new_ranks_of corpus d pagerank) p - getv pagerank p|
          ≤ tdist corpus (new_ranks_of corpus d pagerank) pagerank :=
            abs_le_tdist corpus _ _ (hkeys ▸ hp)
        _ ≤ 1 / 1000 := hres
    rw [iterLoop, if_pos hcheck]
    rfl
  | succ k ih =>
    intro pagerank hkeys hres
    rw [iterLoop]
    by_cases hcheck : convergedCheck pagerank (new_ranks_of corpus d pagerank)
        (keys pagerank) = true
    · rw [if_pos hcheck]
      rfl
    · rw [if_neg hcheck]
      apply ih (new_ranks_of corpus d pagerank) (keys_map_self _ _)
      calc d ^ k * tdist corpus
            (new_ranks_of corpus d (new_ranks_of corpus d pagerank))
            (new_ranks_of corpus d pagerank)
          ≤ d ^ k * (d * tdist corpus (new_ranks_of corpus d pagerank) pagerank) := by
            apply mul_le_mul_of_nonneg_left _ (pow_nonneg hd0 k)
            exact tdist_step_le corpus d _ _ hInv hd0
        _ = d ^ (k + 1) * tdist corpus (new_ranks_of corpus d pagerank) pagerank := by
            ring
        _ ≤ 1 / 1000 := hres

/-- C9: for every non-empty graph satisfying the graph invariants and
every damping factor `d ∈ (0,1)`, the loop of `iterate_pagerank`
terminates — in exact arithmetic the update is a `d`-contraction of the
`L¹` residual, so after finitely many passes every page's change is at
most `0.001` and the convergence test succeeds. -/
theorem C9_iterate_terminates (corpus : Corpus) (d : ℚ)
    (hInv : Inv corpus) (hne : corpus ≠ []) (hd0 : 0 < d) (hd1 : d < 1) :
    ∃ fuel, (iterate_pagerank corpus d fuel).isSome := by
  set t0 : List (Page × ℚ) :=
    (keys corpus).map (fun page => (page, 1 / (corpus.length : ℚ))) with ht0
  set D : ℚ := tdist corpus (new_ranks_of corpus d t0) t0 with hD
  have hDnn : 0 ≤ D := tdist_nonneg _ _ _
  have hDpos : (0 : ℚ) < D + 1 := by linarith
  obtain ⟨k, hk⟩ := exists_pow_lt_of_lt_one
    (x := 1 / 1000 / (D + 1)) (y := d) (by positivity) hd1
  refine ⟨k + 1, ?_⟩
  apply iterLoop_halts corpus d hInv (le_of_lt hd0) k t0 (keys_map_self _ _)
  have h1 : d ^ k * D ≤ d ^ k * (D + 1) := by
    apply mul_le_mul_of_nonneg_left _ (pow_nonneg (le_of_lt hd0) k)
    linarith
  have h2 : d ^ k * (D + 1) < 1 / 1000 / (D + 1) * (D + 1) :=
    mul_lt_mul_of_pos_right hk hDpos
  have h3 : 1 / 1000 / (D + 1) * (D + 1) = 1 / 1000 :=
    div_mul_cancel₀ _ (ne_of_gt hDpos)
  linarith

/-- Witness for C9 on the two-page graph `1 ↔ 2`. -/
theorem C9_witness :
    ∃ fuel, (iterate_pagerank [("1", ["2"]), ("2", ["1"])] (17 / 20) fuel).isSome :=
  C9_iterate_terminates [("1", ["2"]), ("2", ["1"])] (17 / 20)
    (by decide) (by decide) (by norm_num) (by norm_num)

end PageRank
